import Mathlib

/-!
The role constant table of KitRoles.js

A verification development for `src/qml/KitRoles.js`, a script of six top
level `var` declarations:

    var IDRole = 0x100 + 1; // Qt::UserRole + 1
    var NameRole = IDRole + 1;
    var TypeRole = NameRole + 1;
    var FlashRole = TypeRole + 1;
    var Boot1Role = FlashRole + 1;
    var SnapshotRole = Boot1Role + 1;

The script is embedded twice and the two embeddings are proved to agree:

* as six chained constants (`KitRoles.IDRole` ... `KitRoles.SnapshotRole`),
  each defined by the right hand side of its declaration;
* as the sequence of declarations run, one after the other, on the scope
  object of the script (explicit state passing), which gives the table of
  own properties an importer reads by name.

The scope object is a JavaScript object: a read of a name that is not one of
its own properties goes on to what the object inherits (`Scope.read`).

JavaScript numbers are doubles; all the numbers met here are integers far
below 2^53, where double addition is exact, so they are modelled in `Int`.
-/

namespace KitRoles

/-! ## The constants, as written -/

/-- The literal `0x100` of line 4, which the source comment names `Qt::UserRole`. -/
def QtUserRole : Int := 0x100

/-- Line 4: `var IDRole = 0x100 + 1;`. -/
def IDRole : Int := 0x100 + 1

/-- Line 5: `var NameRole = IDRole + 1;`. -/
def NameRole : Int := IDRole + 1

/-- Line 6: `var TypeRole = NameRole + 1;`. -/
def TypeRole : Int := NameRole + 1

/-- Line 7: `var FlashRole = TypeRole + 1;`. -/
def FlashRole : Int := TypeRole + 1

/-- Line 8: `var Boot1Role = FlashRole + 1;`. -/
def Boot1Role : Int := FlashRole + 1

/-- Line 9: `var SnapshotRole = Boot1Role + 1;`. -/
def SnapshotRole : Int := Boot1Role + 1

/-! ## The script scope and the execution of the declarations -/

/-- The scope object of the script: its own properties with their values, in
the order in which they were first assigned. -/
abbrev Scope := List (String × Int)

/-- The own property `name` of the scope: `none` when the scope has no own
property of that name. What the scope object inherits is not looked at here;
the full property read is `Scope.read`. -/
def Scope.get (s : Scope) (name : String) : Option Int :=
  match s with
  | [] => none
  | (k, v) :: rest => if k = name then some v else Scope.get rest name

/-- Assigning `v` to the property `name`: an existing property keeps its
place and takes the new value, a new one is added at the end. -/
def Scope.assign (s : Scope) (name : String) (v : Int) : Scope :=
  match s with
  | [] => [(name, v)]
  | (k, w) :: rest =>
      if k = name then (k, v) :: rest else (k, w) :: Scope.assign rest name v

/-- One statement `var name = init;`. The initialiser is a function of the
scope it is evaluated in; it yields `none` when it does not produce a number
(it reads a variable that has no value yet). -/
structure VarDecl where
  name : String
  init : Scope → Option Int

/-- Running one declaration: evaluate the initialiser, then assign. -/
def VarDecl.exec (d : VarDecl) (s : Scope) : Option Scope :=
  match d.init s with
  | none => none
  | some v => some (s.assign d.name v)

/-- Running a sequence of declarations in order. -/
def run (s : Scope) : List VarDecl → Option Scope
  | [] => some s
  | d :: ds =>
      match d.exec s with
      | none => none
      | some s1 => run s1 ds

/-- The initialiser `x + 1` for a variable `x` of the scope. -/
def succOf (x : String) (s : Scope) : Option Int :=
  match s.get x with
  | none => none
  | some v => some (v + 1)

/-- Lines 4 to 9 of `KitRoles.js`, in declaration order. -/
def program : List VarDecl :=
  [ ⟨"IDRole", fun _ => some (0x100 + 1)⟩,
    ⟨"NameRole", succOf "IDRole"⟩,
    ⟨"TypeRole", succOf "NameRole"⟩,
    ⟨"FlashRole", succOf "TypeRole"⟩,
    ⟨"Boot1Role", succOf "FlashRole"⟩,
    ⟨"SnapshotRole", succOf "Boot1Role"⟩ ]

/-- Loading the script: the declarations run on an empty scope. -/
def load : Option Scope := run [] program

/-- The names of the table, in declaration order: `name[0..5]`. -/
def names : List String := program.map VarDecl.name

/-- The table lookup `get(name)`: the own property `name` of the loaded
script, that is the entry of the table under that name, if there is one. -/
def get (name : String) : Option Int :=
  match load with
  | none => none
  | some s => s.get name

/-- The value of the name at position `i` of the declaration order,
`value(name[i])`. -/
def valueAt (i : Nat) : Option Int :=
  match names.get? i with
  | none => none
  | some n => get n

/-- The table of the six chained constants, keyed by their names, in
declaration order. -/
def table : Scope :=
  [ ("IDRole", IDRole), ("NameRole", NameRole), ("TypeRole", TypeRole),
    ("FlashRole", FlashRole), ("Boot1Role", Boot1Role),
    ("SnapshotRole", SnapshotRole) ]

/-- The value the name at position `i` receives from its own declaration:
its property read in the scope right after declarations `0..i` have run. -/
def definedValue (i : Nat) : Option Int :=
  match names.get? i, run [] (program.take (i + 1)) with
  | some n, some s => s.get n
  | _, _ => none

/-- What code that holds the loaded script can do with it. `KitRoles.js`
declares no function. Its six names are declared with `var` (line 3: "so the
values are visible as properties of the imported script"), neither constant
nor frozen: a property of the scope can be read and can be assigned. -/
inductive Op where
  | read (name : String)
  | write (name : String) (v : Int)

/-- The effect of an operation on the scope, with its result: a read leaves
the scope as it is and returns the own property of that name, an assignment
stores the value and returns it. -/
def Op.apply (s : Scope) : Op → Scope × Option Int
  | Op.read name => (s, s.get name)
  | Op.write name v => (s.assign name v, some v)

/-- The scope after a sequence of operations. -/
def after (s : Scope) : List Op → Scope
  | [] => s
  | o :: os => after (o.apply s).1 os

/-! ## The property read, with what the scope inherits -/

/-- A JavaScript value, as far as this development tells values apart: an
integer number, `undefined`, or any other value (a function, an object),
tagged with the name it was found under. -/
inductive Value where
  | int (n : Int)
  | undefined
  | other (tag : String)
  deriving DecidableEq

/-- What an object inherits along its prototype chain: for each name the
inherited value, `Value.undefined` when the chain has no such property. -/
abbrev Prototype := String → Value

/-- The properties of `Object.prototype` that ECMAScript gives every ordinary
object (section "Properties of the Object Prototype Object"). -/
def objectPrototypeNames : List String :=
  ["constructor", "hasOwnProperty", "isPrototypeOf", "propertyIsEnumerable",
    "toLocaleString", "toString", "valueOf"]

/-- The chain of an ordinary object, `Object.prototype` alone: its standard
properties are functions, every other name is `undefined`. A host may put
more on the chain, which is why the property read takes the chain as an
argument. -/
def objectPrototype : Prototype := fun name =>
  if name ∈ objectPrototypeNames then Value.other name else Value.undefined

/-- The property read `scope[name]` on a scope object whose prototype chain
is `proto`: the own property if there is one, otherwise what is inherited.
It never raises an error. -/
def Scope.read (proto : Prototype) (s : Scope) (name : String) : Value :=
  match s.get name with
  | some v => Value.int v
  | none => proto name

/-- The read of `name` on the loaded script; `none` if the script does not
load. -/
def read (proto : Prototype) (name : String) : Option Value :=
  match load with
  | none => none
  | some s => some (s.read proto name)

/-! ## The native enumeration the table mirrors -/

/-- Modelled from the spec: `kitmodel.h`, the header that declares the native
enumeration `KitModel::Role`, is not among the sources. This is one
enumerator of a native enumeration: a name and an optional explicit value. -/
structure Enumerator where
  name : String
  value : Option Int

/-- Modelled from the spec: the values of a native enumeration (absent
`kitmodel.h`). An enumerator with an explicit value takes it, any other takes
the value of the enumerator before it plus one, and zero if it is first. -/
def enumerate (next : Int) : List Enumerator → Scope
  | [] => []
  | e :: es =>
      let v := e.value.getD next
      (e.name, v) :: enumerate (v + 1) es

/-- Modelled from the spec: the enumeration `KitModel::Role` of the absent
`kitmodel.h`, which section 6 requires to "define the same six roles, in the
same order, starting from the same base offset"; the base offset is
`Qt::UserRole + 1` (comment of line 4 of `KitRoles.js`). -/
def KitModelRole : List Enumerator :=
  [ ⟨"IDRole", some (QtUserRole + 1)⟩, ⟨"NameRole", none⟩, ⟨"TypeRole", none⟩,
    ⟨"FlashRole", none⟩, ⟨"Boot1Role", none⟩, ⟨"SnapshotRole", none⟩ ]

/-- Modelled from the spec: `externalEnum.get(name)` of section 8, the value
of the enumerator `name` of `KitModel::Role` (absent `kitmodel.h`). -/
def externalEnumGet (name : String) : Option Int :=
  Scope.get (enumerate 0 KitModelRole) name

/-! ## Auxiliary facts -/

/-- Loading the script succeeds and yields the table of chained constants. -/
lemma load_eq_table : load = some table := by decide

/-- The lookup on the loaded script is the lookup in the table. -/
lemma get_eq_table (name : String) : get name = table.get name := by
  unfold get
  rw [load_eq_table]

/-- The recognized names. -/
lemma names_eq :
    names = ["IDRole", "NameRole", "TypeRole", "FlashRole", "Boot1Role", "SnapshotRole"] := by
  decide

/-- Membership in the list of names, spelled out. -/
lemma mem_names (name : String) :
    name ∈ names ↔ name = "IDRole" ∨ name = "NameRole" ∨ name = "TypeRole" ∨
      name = "FlashRole" ∨ name = "Boot1Role" ∨ name = "SnapshotRole" := by
  rw [names_eq]
  simp

/-- A name outside the six has no property in the loaded script. -/
lemma get_of_not_mem (name : String) (h : name ∉ names) : get name = none := by
  rw [mem_names] at h
  simp only [not_or] at h
  obtain ⟨h1, h2, h3, h4, h5, h6⟩ := h
  rw [get_eq_table]
  simp only [table, Scope.get]
  rw [if_neg (Ne.symm h1), if_neg (Ne.symm h2), if_neg (Ne.symm h3),
    if_neg (Ne.symm h4), if_neg (Ne.symm h5), if_neg (Ne.symm h6)]

/-- A successful lookup returns the closed-form value of some position. -/
lemma get_some_cases (name : String) (v : Int) (h : get name = some v) :
    (name = "IDRole" ∧ v = 257) ∨ (name = "NameRole" ∧ v = 258) ∨
    (name = "TypeRole" ∧ v = 259) ∨ (name = "FlashRole" ∧ v = 260) ∨
    (name = "Boot1Role" ∧ v = 261) ∨ (name = "SnapshotRole" ∧ v = 262) := by
  by_cases hm : name ∈ names
  · rw [mem_names] at hm
    have key : ∀ w : Int, get name = some w → v = w := fun w hw =>
      Option.some.inj (h.symm.trans hw)
    rcases hm with rfl | rfl | rfl | rfl | rfl | rfl
    · exact Or.inl ⟨rfl, key 257 (by decide)⟩
    · exact Or.inr (Or.inl ⟨rfl, key 258 (by decide)⟩)
    · exact Or.inr (Or.inr (Or.inl ⟨rfl, key 259 (by decide)⟩))
    · exact Or.inr (Or.inr (Or.inr (Or.inl ⟨rfl, key 260 (by decide)⟩)))
    · exact Or.inr (Or.inr (Or.inr (Or.inr (Or.inl ⟨rfl, key 261 (by decide)⟩))))
    · exact Or.inr (Or.inr (Or.inr (Or.inr (Or.inr ⟨rfl, key 262 (by decide)⟩))))
  · rw [get_of_not_mem name hm] at h
    exact absurd h (by simp)

/-- The value at each position of the declaration order, in closed form. -/
lemma valueAt_closed (i : Nat) (hi : i < 6) : valueAt i = some (257 + (i : Int)) := by
  interval_cases i <;> decide

/-- Assigning to one property leaves every other property as it is. -/
lemma Scope.get_assign_of_ne (s : Scope) (k n : String) (v : Int) (h : k ≠ n) :
    Scope.get (Scope.assign s k v) n = Scope.get s n := by
  induction s with
  | nil => simp [Scope.assign, Scope.get, h]
  | cons p rest ih =>
      obtain ⟨k0, w⟩ := p
      by_cases hk : k0 = k
      · subst hk
        simp [Scope.assign, Scope.get, h]
      · by_cases hn : k0 = n
        · subst hn
          simp [Scope.assign, Scope.get, hk]
        · simp [Scope.assign, Scope.get, hk, hn, ih]

/-- A property reads the same after a sequence of operations none of which
assigns to it. -/
lemma after_get_of_not_written (ops : List Op) (n : String)
    (hw : ∀ v : Int, Op.write n v ∉ ops) (s : Scope) :
    (after s ops).get n = s.get n := by
  induction ops generalizing s with
  | nil => rfl
  | cons o os ih =>
      have hos : ∀ v : Int, Op.write n v ∉ os := fun v hv =>
        hw v (List.mem_cons_of_mem _ hv)
      cases o with
      | read name => exact ih hos s
      | write name v =>
          have hne : name ≠ n := by
            rintro rfl
            exact hw v (List.mem_cons_self _ _)
          show (after (s.assign name v) os).get n = s.get n
          rw [ih hos, Scope.get_assign_of_ne s name n v hne]

/-- Each of the six names has a property in the loaded script. -/
lemma get_of_mem (name : String) (h : name ∈ names) : ∃ v : Int, get name = some v := by
  rw [mem_names] at h
  rcases h with rfl | rfl | rfl | rfl | rfl | rfl
  · exact ⟨257, by decide⟩
  · exact ⟨258, by decide⟩
  · exact ⟨259, by decide⟩
  · exact ⟨260, by decide⟩
  · exact ⟨261, by decide⟩
  · exact ⟨262, by decide⟩

/-! ## The properties of the table -/

/-- C1: the six constants have the values 257, 258, 259, 260, 261 and 262,
both as chained constants and as the properties read from the loaded
script. -/
theorem constant_values :
    IDRole = 257 ∧ NameRole = 258 ∧ TypeRole = 259 ∧ FlashRole = 260 ∧
    Boot1Role = 261 ∧ SnapshotRole = 262 ∧
    get "IDRole" = some 257 ∧ get "NameRole" = some 258 ∧
    get "TypeRole" = some 259 ∧ get "FlashRole" = some 260 ∧
    get "Boot1Role" = some 261 ∧ get "SnapshotRole" = some 262 := by
  decide

/-- C2: density. For every position `i` from 1 to 5 of the declaration
order, the value of `name[i]` is the value of `name[i-1]` plus one. -/
theorem density (i : Nat) (h1 : 1 ≤ i) (h5 : i ≤ 5) :
    ∃ v p : Int, valueAt i = some v ∧ valueAt (i - 1) = some p ∧ v = p + 1 := by
  refine ⟨257 + (i : Int), 257 + ((i - 1 : Nat) : Int),
    valueAt_closed i (by omega), valueAt_closed (i - 1) (by omega), ?_⟩
  omega

/-- Witness of C2 at position 3 (`FlashRole` after `TypeRole`). -/
theorem density_witness :
    ∃ v p : Int, valueAt 3 = some v ∧ valueAt (3 - 1) = some p ∧ v = p + 1 :=
  density 3 (by decide) (by decide)

/-- C3: base anchoring. The first name of the table is `IDRole` and its
value is the base `0x100 + 1`, that is `Qt::UserRole` (256) plus one, 257. -/
theorem base_anchoring :
    names.head? = some "IDRole" ∧ valueAt 0 = some (0x100 + 1) ∧
    IDRole = QtUserRole + 1 ∧ QtUserRole = 256 ∧ IDRole = 257 := by
  decide

/-- C4: uniqueness. The six names are pairwise distinct, and two distinct
names of the table are both bound, to values that differ. -/
theorem uniqueness (a b : String) (ha : a ∈ names) (hb : b ∈ names) (hab : a ≠ b) :
    names.Nodup ∧ ∃ va vb : Int, get a = some va ∧ get b = some vb ∧ va ≠ vb := by
  obtain ⟨va, hva⟩ := get_of_mem a ha
  obtain ⟨vb, hvb⟩ := get_of_mem b hb
  refine ⟨by decide, va, vb, hva, hvb, ?_⟩
  rcases get_some_cases a va hva with
    ⟨rfl, rfl⟩ | ⟨rfl, rfl⟩ | ⟨rfl, rfl⟩ | ⟨rfl, rfl⟩ | ⟨rfl, rfl⟩ | ⟨rfl, rfl⟩ <;>
  rcases get_some_cases b vb hvb with
    ⟨rfl, rfl⟩ | ⟨rfl, rfl⟩ | ⟨rfl, rfl⟩ | ⟨rfl, rfl⟩ | ⟨rfl, rfl⟩ | ⟨rfl, rfl⟩ <;>
  first
    | exact absurd rfl hab
    | decide

/-- Witness of C4 at the names `FlashRole` and `Boot1Role`. -/
theorem uniqueness_witness :
    names.Nodup ∧
    ∃ va vb : Int, get "FlashRole" = some va ∧ get "Boot1Role" = some vb ∧ va ≠ vb :=
  uniqueness "FlashRole" "Boot1Role" (by decide) (by decide) (by decide)

/-- C5: the values are strictly increasing in declaration order: for two
positions `i < j` of the six, the value at `i` is less than the value at `j`. -/
theorem strictly_increasing (i j : Nat) (hij : i < j) (hj : j < 6) :
    ∃ vi vj : Int, valueAt i = some vi ∧ valueAt j = some vj ∧ vi < vj := by
  refine ⟨257 + (i : Int), 257 + (j : Int),
    valueAt_closed i (by omega), valueAt_closed j hj, ?_⟩
  omega

/-- Witness of C5 at the positions 1 and 4 (`NameRole`, `Boot1Role`). -/
theorem strictly_increasing_witness :
    ∃ vi vj : Int, valueAt 1 = some vi ∧ valueAt 4 = some vj ∧ vi < vj :=
  strictly_increasing 1 4 (by decide) (by decide)

/-- C6, as stated, fails: `toString` is not one of the six names, yet on the
loaded script, an ordinary object, its read yields a value, the function
inherited from `Object.prototype`, not nothing. -/
theorem lookup_other_name_counterexample :
    "toString" ∉ names ∧
    read objectPrototype "toString" = some (Value.other "toString") ∧
    read objectPrototype "toString" ≠ some Value.undefined ∧
    ¬ ∀ name : String, name ∉ names → read objectPrototype name = some Value.undefined := by
  refine ⟨by decide, by decide, by decide, fun hall => ?_⟩
  exact absurd (hall "toString" (by decide)) (by decide)

/-- C6, amended: the table has an entry (the loaded script an own property)
for exactly the six recognized names. A name of the six is bound to an
integer, and its read returns that integer whatever the scope inherits. Any
other name has no entry, and its read raises no error and returns what the
scope object inherits under that name. -/
theorem lookup_defined_exactly (proto : Prototype) (name : String) :
    names = ["IDRole", "NameRole", "TypeRole", "FlashRole", "Boot1Role", "SnapshotRole"] ∧
    ((∃ v : Int, get name = some v) ↔ name ∈ names) ∧
    (get name = none ↔ name ∉ names) ∧
    ((name ∈ names ∧ ∃ v : Int, get name = some v ∧ read proto name = some (Value.int v)) ∨
      (name ∉ names ∧ get name = none ∧ read proto name = some (proto name))) := by
  have hread : read proto name = some (Scope.read proto table name) := by
    unfold read
    rw [load_eq_table]
  refine ⟨names_eq, ⟨?_, get_of_mem name⟩, ⟨?_, get_of_not_mem name⟩, ?_⟩
  · rintro ⟨v, hv⟩
    by_contra hn
    rw [get_of_not_mem name hn] at hv
    exact absurd hv (by simp)
  · intro hnone hm
    obtain ⟨v, hv⟩ := get_of_mem name hm
    rw [hnone] at hv
    exact absurd hv (by simp)
  · by_cases hm : name ∈ names
    · obtain ⟨v, hv⟩ := get_of_mem name hm
      refine Or.inl ⟨hm, v, hv, ?_⟩
      rw [hread, Scope.read, ← get_eq_table, hv]
    · have hnone := get_of_not_mem name hm
      refine Or.inr ⟨hm, hnone, ?_⟩
      rw [hread, Scope.read, ← get_eq_table, hnone]

/-- C7: cross-definition equality. For each of the six names, the value in
this table is the value of the enumerator of the same name of the native
enumeration `KitModel::Role`. -/
theorem cross_definition_equality (name : String) (h : name ∈ names) :
    ∃ v : Int, get name = some v ∧ externalEnumGet name = some v := by
  rw [mem_names] at h
  rcases h with rfl | rfl | rfl | rfl | rfl | rfl
  · exact ⟨257, by decide, by decide⟩
  · exact ⟨258, by decide, by decide⟩
  · exact ⟨259, by decide, by decide⟩
  · exact ⟨260, by decide, by decide⟩
  · exact ⟨261, by decide, by decide⟩
  · exact ⟨262, by decide, by decide⟩

/-- Witness of C7 at the name `TypeRole`. -/
theorem cross_definition_equality_witness :
    ∃ v : Int, get "TypeRole" = some v ∧ externalEnumGet "TypeRole" = some v :=
  cross_definition_equality "TypeRole" (by decide)

/-- C8, as stated, fails: the script loads with `IDRole` bound to 257, and
after the single assignment `IDRole = 0`, which a `var` property admits, the
read of `IDRole` returns 0. So it is not the case that every read after load
returns the value the name had at definition. -/
theorem immutable_after_definition_counterexample :
    load = some table ∧ definedValue 0 = some 257 ∧ get "IDRole" = some 257 ∧
    (after table [Op.write "IDRole" 0]).get "IDRole" = some 0 ∧
    ¬ ∀ (ops : List Op) (name : String), name ∈ names →
        (after table ops).get name = get name := by
  refine ⟨by decide, by decide, by decide, by decide, fun hall => ?_⟩
  exact absurd (hall [Op.write "IDRole" 0] "IDRole" (by decide)) (by decide)

/-- C8, amended: the script loads, and each of the six names then holds the
value its own declaration gave it; after any sequence of operations that
does not assign to the name (in particular any sequence of reads), the read
of the name still returns that value. -/
theorem unchanged_unless_assigned (ops : List Op) (i : Nat) (n : String)
    (hn : names.get? i = some n) (hw : ∀ v : Int, Op.write n v ∉ ops) :
    ∃ (s : Scope) (v : Int),
      load = some s ∧ definedValue i = some v ∧ get n = some v ∧
      (after s ops).get n = some v := by
  have hfr : ∀ v : Int, get n = some v → (after table ops).get n = some v := fun v h => by
    rw [after_get_of_not_written ops n hw, ← get_eq_table, h]
  rw [names_eq] at hn
  match i, hn with
  | 0, hn =>
      obtain rfl : "IDRole" = n := by simpa using hn
      exact ⟨table, 257, load_eq_table, by decide, by decide, hfr _ (by decide)⟩
  | 1, hn =>
      obtain rfl : "NameRole" = n := by simpa using hn
      exact ⟨table, 258, load_eq_table, by decide, by decide, hfr _ (by decide)⟩
  | 2, hn =>
      obtain rfl : "TypeRole" = n := by simpa using hn
      exact ⟨table, 259, load_eq_table, by decide, by decide, hfr _ (by decide)⟩
  | 3, hn =>
      obtain rfl : "FlashRole" = n := by simpa using hn
      exact ⟨table, 260, load_eq_table, by decide, by decide, hfr _ (by decide)⟩
  | 4, hn =>
      obtain rfl : "Boot1Role" = n := by simpa using hn
      exact ⟨table, 261, load_eq_table, by decide, by decide, hfr _ (by decide)⟩
  | 5, hn =>
      obtain rfl : "SnapshotRole" = n := by simpa using hn
      exact ⟨table, 262, load_eq_table, by decide, by decide, hfr _ (by decide)⟩
  | i + 6, hn => simp at hn

/-- Witness of the amended C8: `SnapshotRole` (position 5) after a read, an
assignment to another name and a read of an unknown name. -/
theorem unchanged_unless_assigned_witness :
    names.get? 5 = some "SnapshotRole" ∧
    (∀ v : Int, Op.write "SnapshotRole" v ∉
      [Op.read "IDRole", Op.write "IDRole" 0, Op.read "Other"]) ∧
    ∃ (s : Scope) (v : Int),
      load = some s ∧ definedValue 5 = some v ∧ get "SnapshotRole" = some v ∧
      (after s [Op.read "IDRole", Op.write "IDRole" 0, Op.read "Other"]).get "SnapshotRole" =
        some v :=
  ⟨by decide, fun v => by simp,
    unchanged_unless_assigned [Op.read "IDRole", Op.write "IDRole" 0, Op.read "Other"] 5
      "SnapshotRole" (by decide) (fun v => by simp)⟩

/-- C9: the chained definition agrees with the closed form. For every
position `i` from 0 to 5, the value of `name[i]`, and the chained constant at
that position, is `0x100 + 1 + i`; the values of the table are exactly the
integers from 257 to 262. -/
theorem closed_form (i : Nat) (hi : i ≤ 5) :
    valueAt i = some (0x100 + 1 + (i : Int)) ∧
    (table.get? i).map Prod.snd = some (0x100 + 1 + (i : Int)) ∧
    ∀ v : Int, (∃ name : String, get name = some v) ↔ (257 ≤ v ∧ v ≤ 262) := by
  refine ⟨?_, ?_, fun v => ⟨?_, ?_⟩⟩
  · rw [valueAt_closed i (by omega)]
    norm_num
  · interval_cases i <;> decide
  · rintro ⟨name, h⟩
    rcases get_some_cases name v h with
      ⟨_, rfl⟩ | ⟨_, rfl⟩ | ⟨_, rfl⟩ | ⟨_, rfl⟩ | ⟨_, rfl⟩ | ⟨_, rfl⟩ <;> decide
  · rintro ⟨hlo, hhi⟩
    interval_cases v
    · exact ⟨"IDRole", by decide⟩
    · exact ⟨"NameRole", by decide⟩
    · exact ⟨"TypeRole", by decide⟩
    · exact ⟨"FlashRole", by decide⟩
    · exact ⟨"Boot1Role", by decide⟩
    · exact ⟨"SnapshotRole", by decide⟩

/-- Witness of C9 at position 4 (`Boot1Role`, 261). -/
theorem closed_form_witness :
    valueAt 4 = some (0x100 + 1 + ((4 : Nat) : Int)) ∧
    (table.get? 4).map Prod.snd = some (0x100 + 1 + ((4 : Nat) : Int)) ∧
    ∀ v : Int, (∃ name : String, get name = some v) ↔ (257 ≤ v ∧ v ≤ 262) :=
  closed_form 4 (by decide)

/-- C10: every value of the table is strictly greater than `Qt::UserRole`
(0x100 = 256): none lies in the range below the base offset, none equals
`Qt::UserRole`. -/
theorem above_user_role (name : String) (v : Int) (h : get name = some v) :
    QtUserRole = 0x100 ∧ QtUserRole < v ∧ v ≠ QtUserRole := by
  have hq : QtUserRole = 256 := by decide
  rw [hq]
  rcases get_some_cases name v h with
    ⟨_, rfl⟩ | ⟨_, rfl⟩ | ⟨_, rfl⟩ | ⟨_, rfl⟩ | ⟨_, rfl⟩ | ⟨_, rfl⟩ <;> decide

/-- Witness of C10 at the name `IDRole`, the smallest value. -/
theorem above_user_role_witness :
    get "IDRole" = some 257 ∧ QtUserRole = 0x100 ∧ QtUserRole < 257 ∧ (257 : Int) ≠ QtUserRole :=
  ⟨by decide, above_user_role "IDRole" 257 (by decide)⟩

end KitRoles
